import Mathlib

/-!
Shallow embedding of the job-orchestration core of the video-downloader
repository (src/web_app.py, src/downloader.py, src/transcription.py).

Modelling conventions:
* Python dict-based job records become the `Job` structure; every field of the
  dict created by `_create_job` is a field of `Job`.  The `transcript_errors`
  key is absent from the initial dict and is added by `setdefault` on the
  first append; since the finalization test `"transcript_errors" in job and
  job["transcript_errors"]` is equivalent to the list being non-empty, the
  field is modelled as a plain list that starts empty.
* Fractions (download progress, timestamps) are rationals.
* Each `with JOBS_LOCK:` block of `web_app.py` is one atomic step.  A run of
  `_run_download_job` for a single job is modelled as the list of job states
  after each such step (`runJobTrace`); hooks fired by the fetch capability
  are interleaved where `download_urls` fires them.
* External effects (yt-dlp events, the filesystem, Whisper) are oracles in
  `Env`: per-item hook events, `pathExists`, `isInstagram`
  (for `_is_instagram_path`, which consults the filesystem), and `transcribe`
  (the outcome of `transcribe_audio` on a path: a RuntimeError, another
  exception, or an optional transcript path).
* The probing of yt-dlp info dicts by `_extract_fileinfo` / `_progress_hook`
  (title, webpage url, filename, thumbnail fallbacks) is abstracted: a hook
  event carries the already-extracted title, url and optional file record,
  since no claim constrains the probing order itself.
* The pure model treats list-valued fields by value; CPython reference
  semantics of `dict.copy()` (needed only for the snapshot claim about
  `job_progress`) is modelled separately and explicitly with a heap of lists
  (`PyHeap`, `PyJobRec`) further below.
-/

/-- The job status strings used by `web_app.py`. -/
inductive Status where
  | pending
  | running
  | reencoding
  | transcribing
  | completed
  | completed_with_warnings
  | error
  deriving DecidableEq, Repr

/-- One entry of `job["completed_files"]` as appended by `_progress_hook`:
`{"name": filename, "thumbnail": thumbnail, "path": str(file_path) or None}`. -/
structure CompletedFile where
  name : String
  thumbnail : Option String
  path : Option String
  deriving DecidableEq, Repr

/-- One entry of the local `transcripts` list in `_run_download_job`:
`{"name": Path(tp).name, "path": str(tp), "source": file_info.get("name", "")}`. -/
structure TranscriptEntry where
  name : String
  path : String
  source : String
  deriving DecidableEq, Repr

/-- One entry of `job["transcript_errors"]`:
`{"file": str(target_path), "error": str(exc)}`. -/
structure TranscriptError where
  file : String
  error : String
  deriving DecidableEq, Repr

/-- The job record dict created by `_create_job` in `web_app.py`. -/
structure Job where
  status : Status
  total : Nat
  completed : Nat
  current_progress : ℚ
  current_title : String
  current_url : String
  failed : List String
  completed_files : List CompletedFile
  transcripts : List TranscriptEntry
  audio_only : Bool
  transcript_total : Nat
  transcript_completed : Nat
  transcript_started_at : Option ℚ
  transcript_errors : List TranscriptError
  error : Option String
  output_dir : String
  transcript_format : Option String
  transcript_language : Option String
  reencode_h264 : Bool
  reencode_total : Nat
  reencode_completed : Nat
  deriving DecidableEq, Repr

instance : Inhabited Job :=
  ⟨⟨.pending, 0, 0, 0, "", "", [], [], [], false, 0, 0, none, [], none, "", none, none,
    false, 0, 0⟩⟩

/-- Mirror of `_create_job` (web_app.py): the fresh record stored in `JOBS`. -/
def createJob (total : Nat) (output_dir : String) (audio_only : Bool)
    (transcript_format transcript_language : Option String) : Job :=
  { status := .pending
    total := total
    completed := 0
    current_progress := 0
    current_title := ""
    current_url := ""
    failed := []
    completed_files := []
    transcripts := []
    audio_only := audio_only
    transcript_total := 0
    transcript_completed := 0
    transcript_started_at := none
    transcript_errors := []
    error := none
    output_dir := output_dir
    transcript_format := transcript_format
    transcript_language := transcript_language
    reencode_h264 := false
    reencode_total := 0
    reencode_completed := 0 }

/-- A yt-dlp progress event as seen by `_progress_hook`, with the info-dict
probing already performed: `downloading` carries the byte counters
(`data.get("downloaded_bytes") or 0`, `data.get("total_bytes") or
data.get("total_bytes_estimate") or 0`), `finished` carries the result of
`_extract_fileinfo` plus the resolved thumbnail (`none` when no filename was
found, in which case nothing is appended), and `other` is any further hook
status, which only updates the title and url fields. -/
inductive HookEvent where
  | downloading (title url : String) (downloadedBytes totalBytes : Nat)
  | finished (title url : String) (file : Option CompletedFile)
  | other (title url : String)
  deriving DecidableEq, Repr

/-- Mirror of `_progress_hook` (web_app.py): one locked update of the record. -/
def progressHook (j : Job) (e : HookEvent) : Job :=
  match e with
  | .downloading title url db tb =>
      let progress : ℚ := if tb = 0 then 0 else (db : ℚ) / (tb : ℚ)
      let j1 := { j with current_title := title, current_url := url,
                         current_progress := progress }
      if j1.status = .pending then { j1 with status := .running } else j1
  | .finished title url file =>
      let j1 := { j with current_title := title, current_url := url,
                         current_progress := 1 }
      match file with
      | some f => { j1 with completed_files := j1.completed_files ++ [f] }
      | none => j1
  | .other title url =>
      { j with current_title := title, current_url := url }

/-- Mirror of `_item_complete` (web_app.py): fired by `download_urls` after
each url, success or failure; the success flag is ignored by the hook. -/
def itemComplete (j : Job) : Job :=
  { j with completed := min j.total (j.completed + 1), current_progress := 0 }

/-- One url processed by the `download_urls` loop: the hook events its fetch
fires, and whether `extract_info`/`process_ie_result` succeeded. -/
structure FetchItem where
  url : String
  events : List HookEvent
  success : Bool
  deriving DecidableEq, Repr

/-- States after each `_progress_hook` call while fetching one item. -/
def runHooks (j : Job) : List HookEvent → List Job
  | [] => []
  | e :: rest =>
      let j2 := progressHook j e
      j2 :: runHooks j2 rest

/-- States after each locked mutation during the `download_urls` loop: per
item, its hook events followed by the `_item_complete` update. -/
def fetchTrace (j : Job) : List FetchItem → List Job
  | [] => []
  | it :: rest =>
      let hs := runHooks j it.events
      let j1 := hs.getLastD j
      let j2 := itemComplete j1
      hs ++ j2 :: fetchTrace j2 rest

/-- The list returned by `download_urls`: the urls appended to the local
`failed` list, in iteration order. -/
def failedUrls (items : List FetchItem) : List String :=
  (items.filter (fun it => !it.success)).map FetchItem.url

/-- State after `job["failed"] = failed` (the locked block directly after
`download_urls` returns, which also snapshots `completed_files`). -/
def fetchFinal (j0 : Job) (items : List FetchItem) : Job :=
  { (fetchTrace j0 items).getLastD j0 with failed := failedUrls items }

/-- Final component of a path, as `Path(p).name`. -/
def basenameOf (p : String) : String :=
  String.mk (p.data.reverse.takeWhile (fun c => c ≠ '/')).reverse

/-- Stem of a final path component per `pathlib`: everything before the last
dot, except that a dot at position 0 (hidden files) yields no suffix. -/
def pyStem (name : List Char) : List Char :=
  match name.reverse.dropWhile (fun c => c ≠ '.') with
  | [] => name
  | [_] => name
  | _ :: rest => rest.reverse

/-- Suffix of a path per `Path(p).suffix`: the last dot of the final
component and what follows it, empty when there is no dot or the dot is the
first character of the component. -/
def pySuffix (p : String) : String :=
  let nameRev := p.data.reverse.takeWhile (fun c => c ≠ '/')
  let extRev := nameRev.takeWhile (fun c => c ≠ '.')
  if extRev.length = nameRev.length then ""
  else if extRev.length + 1 = nameRev.length then ""
  else String.mk ('.' :: extRev.reverse)

/-- Mirror of `Path(p).with_suffix(".mp3")`: replace the suffix of the final
component (append when there is none). -/
def withSuffixMp3 (p : String) : String :=
  let rev := p.data.reverse
  let nameRev := rev.takeWhile (fun c => c ≠ '/')
  let dirRev := rev.dropWhile (fun c => c ≠ '/')
  String.mk (dirRev.reverse ++ pyStem nameRev.reverse ++ ".mp3".data)

/-- Mirror of `output_dir / filename`. -/
def joinPath (d f : String) : String := d ++ "/" ++ f

/-- Outcome of one `transcribe_audio` call as observed by
`_run_download_job`: a `RuntimeError` (model unavailable, fatal), any other
exception (per-file failure), or a normal return of `Optional[Path]`. -/
inductive TranscribeOutcome where
  | fatal (msg : String)
  | failure (msg : String)
  | ok (path : Option String)
  deriving DecidableEq, Repr

/-- The external world of one job run: the filesystem queries and the
transcription capability, plus the `time.time()` value read at the start of
the transcribe stage.  `isInstagram p od` is `_is_instagram_path(Path(p),
Path(od))`, which consults the filesystem through `resolve()`. -/
structure Env where
  pathExists : String → Bool
  isInstagram : String → String → Bool
  transcribe : String → TranscribeOutcome
  startTime : ℚ

/-- The reencode-target filter of `_run_download_job`: a completed file with
a non-empty path that exists, has suffix `.mp4` (lowercased), and lies under
the Instagram subdirectory. -/
def isReencodeTarget (env : Env) (od : String) (f : CompletedFile) : Bool :=
  match f.path with
  | some p =>
      !(p = "") && env.pathExists p && ((pySuffix p).toLower == ".mp4")
        && env.isInstagram p od
  | none => false

/-- The locked block entering the reencode stage. -/
def reencodeInit (j : Job) (k : Nat) : Job :=
  { j with status := .reencoding, reencode_total := k, reencode_completed := 0,
           reencode_h264 := true }

/-- States of the reencode stage: the init block, then one locked update
`job["reencode_completed"] = idx` per target (`enumerate(..., start=1)`);
`_reencode_video_to_h264` itself never touches the record. -/
def reencodeTrace (j : Job) (k : Nat) : List Job :=
  reencodeInit j k ::
    (List.range k).map (fun i => { reencodeInit j k with reencode_completed := i + 1 })

/-- The target-path resolution at the head of the transcribe loop: try the
recorded path, then its `.mp3` sibling, then `output_dir / name`, then its
`.mp3` sibling; the final `target_path is None or not target_path.exists()`
guard is kept as the outer existence recheck. -/
def resolveTarget (env : Env) (od : String) (f : CompletedFile) : Option String :=
  let fromPath : Option String :=
    match f.path with
    | some p =>
        if p ≠ "" then
          if env.pathExists p then some p
          else if env.pathExists (withSuffixMp3 p) then some (withSuffixMp3 p)
          else none
        else none
    | none => none
  let target : Option String :=
    match fromPath with
    | some t => some t
    | none =>
        if f.name ≠ "" then
          if env.pathExists (joinPath od f.name) then some (joinPath od f.name)
          else if env.pathExists (withSuffixMp3 (joinPath od f.name)) then
            some (withSuffixMp3 (joinPath od f.name))
          else none
        else none
  match target with
  | some t => if env.pathExists t then some t else none
  | none => none

/-- The error message set when `transcribe_audio` raises `RuntimeError`. -/
def whisperLoadFailMsg (msg : String) : String :=
  "Whisper 모델 로딩 실패: " ++ msg

/-- Result of the transcribe loop: the emitted job states, the record state
after the loop, whether the runner returned early (fatal), and the local
`transcripts` list. -/
structure TLoopResult where
  trace : List Job
  final : Job
  stopped : Bool
  transcripts : List TranscriptEntry
  deriving Repr

/-- Mirror of the transcribe loop of `_run_download_job`: files without a
resolvable target are skipped silently; a `RuntimeError` sets
`status=error` and returns from the runner; any other exception appends to
`transcript_errors` and continues; a normal return appends to the local
`transcripts` list when a path was produced and then sets
`transcript_completed = len(transcripts)`.  (The in-place
`file_info["path"] = str(target_path)` update of the shared dict is not
modelled: no claim depends on the stored path after this point.) -/
def transcribeFiles (env : Env) (od : String) (j : Job) (ts : List TranscriptEntry) :
    List CompletedFile → TLoopResult
  | [] => ⟨[], j, false, ts⟩
  | f :: rest =>
      match resolveTarget env od f with
      | none => transcribeFiles env od j ts rest
      | some p =>
          match env.transcribe p with
          | .fatal msg =>
              let j2 := { j with status := .error,
                                 error := some (whisperLoadFailMsg msg) }
              ⟨[j2], j2, true, ts⟩
          | .failure msg =>
              let j2 := { j with transcript_errors :=
                            j.transcript_errors ++ [⟨p, msg⟩] }
              let r := transcribeFiles env od j2 ts rest
              ⟨j2 :: r.trace, r.final, r.stopped, r.transcripts⟩
          | .ok op =>
              let ts2 := match op with
                | some tp => ts ++ [⟨basenameOf tp, tp, f.name⟩]
                | none => ts
              let j2 := { j with transcript_completed := ts2.length }
              let r := transcribeFiles env od j2 ts2 rest
              ⟨j2 :: r.trace, r.final, r.stopped, r.transcripts⟩

/-- The locked block entering the transcribe stage. -/
def transcribeInit (env : Env) (j : Job) : Job :=
  { j with status := .transcribing,
           transcript_total := j.completed_files.length,
           transcript_completed := 0,
           transcript_started_at := some env.startTime }

/-- Mirror of the finalization block of `_run_download_job` (the last locked
block of the `try` body), statement by statement.  Note the source assigns
`status = "completed_with_warnings"` and then unconditionally assigns
`status = "completed"` on the next line. -/
def finalize (j : Job) (ts : List TranscriptEntry) : Job :=
  let j1 := if !ts.isEmpty then { j with transcripts := ts } else j
  let j2 := if !j1.transcript_errors.isEmpty then
              { j1 with status := .completed_with_warnings } else j1
  { j2 with status := .completed, completed := j2.total, current_progress := 0 }

/-- The `reencode_targets` list built by `_run_download_job`: candidates are
collected only when the job is not audio-only and some file completed. -/
def reencTargets (env : Env) (od : String) (jF : Job) : List CompletedFile :=
  if !jF.audio_only && !jF.completed_files.isEmpty then
    jF.completed_files.filter (isReencodeTarget env od)
  else []

/-- States emitted by the reencode stage (empty when no target qualifies,
matching `if reencode_targets:`). -/
def reencStates (env : Env) (od : String) (jF : Job) : List Job :=
  if (reencTargets env od jF).isEmpty then []
  else reencodeTrace jF (reencTargets env od jF).length

/-- The record state after the reencode stage. -/
def afterReencode (env : Env) (od : String) (jF : Job) : Job :=
  if (reencTargets env od jF).isEmpty then jF
  else
    { reencodeInit jF (reencTargets env od jF).length with
      reencode_completed := (reencTargets env od jF).length }

/-- The condition `if audio_only and completed_files:` guarding both the
transcribe-stage entry block and the transcribe loop. -/
def transcribeEntered (jF : Job) : Bool :=
  jF.audio_only && !jF.completed_files.isEmpty

/-- The state list emitted by the transcribe-stage entry block. -/
def transcribeInitStates (env : Env) (od : String) (jF : Job) : List Job :=
  if transcribeEntered jF then [transcribeInit env (afterReencode env od jF)]
  else []

/-- The record state just before the transcribe loop. -/
def beforeTranscribe (env : Env) (od : String) (jF : Job) : Job :=
  if transcribeEntered jF then transcribeInit env (afterReencode env od jF)
  else afterReencode env od jF

/-- The transcribe loop over the snapshotted `completed_files`, run with the
empty local `transcripts` list (a no-op result when the stage is skipped). -/
def transcribeResult (env : Env) (od : String) (jF : Job) : TLoopResult :=
  if transcribeEntered jF then
    transcribeFiles env od (beforeTranscribe env od jF) [] jF.completed_files
  else ⟨[], beforeTranscribe env od jF, false, []⟩

/-- The full mutation trace of `_run_download_job` for one job, starting from
the stored record `j0`: every element is the record state after one locked
block (with `j0` itself, the state at creation, at the head).  The runner is
the record's only writer, so these are exactly the states a concurrent
snapshot can observe.  When the transcribe loop returns early (fatal), the
finalization block never runs. -/
def runJobTrace (env : Env) (od : String) (j0 : Job) (items : List FetchItem) :
    List Job :=
  let jF := fetchFinal j0 items
  let r := transcribeResult env od jF
  j0 :: fetchTrace j0 items ++ [jF] ++ reencStates env od jF ++
    transcribeInitStates env od jF ++ r.trace ++
    (if r.stopped then [] else [finalize r.final r.transcripts])

/-- The record state once the runner has ended; the store keeps serving it
unchanged afterwards. -/
def finalState (env : Env) (od : String) (j0 : Job) (items : List FetchItem) : Job :=
  (runJobTrace env od j0 items).getLastD j0

/-- Mirror of the derived progress computation of `job_progress`
(web_app.py): `(completed + current_progress) / total` guarded by
`total <= 0`, then clamped by `max(0.0, min(1.0, value))`. -/
def progressValue (j : Job) : ℚ :=
  let total := j.total
  let pv : ℚ := if total ≤ 0 then 0
    else ((j.completed : ℚ) + j.current_progress) / (total : ℚ)
  max 0 (min 1 pv)

/-! URL splitting (`_split_urls`) and job submission (`api_download`). -/

/-- Line-boundary characters.  `str.splitlines` also breaks on a handful of
exotic control and Unicode characters (vertical tab, form feed, the file,
group and record separators, next line, and the Unicode line and paragraph
separators); those are not modelled, so the embedding covers blobs whose
line structure uses the usual newline characters. -/
def lineBreakChar (c : Char) : Bool := c = '\n' || c = '\r'

/-- Mirror of `url_blob.replace(",", "\n")` (single-character replace). -/
def replaceCommas (cs : List Char) : List Char :=
  cs.map (fun c => if c = ',' then '\n' else c)

/-- Mirror of `str.splitlines`: each boundary ends a segment, a `\r\n` pair
counts once, and a trailing boundary does not produce an extra empty
segment. -/
def splitlinesAux (acc : List Char) : List Char → List (List Char)
  | [] => if acc.isEmpty then [] else [acc.reverse]
  | c :: rest =>
      if c = '\r' then
        match rest with
        | [] => acc.reverse :: splitlinesAux [] []
        | c2 :: rest2 =>
            if c2 = '\n' then acc.reverse :: splitlinesAux [] rest2
            else acc.reverse :: splitlinesAux [] (c2 :: rest2)
      else if c = '\n' then acc.reverse :: splitlinesAux [] rest
      else splitlinesAux (c :: acc) rest

/-- Whitespace as stripped by `str.strip` (ASCII part; exotic Unicode spaces
are not modelled). -/
def pySpace (c : Char) : Bool := c.isWhitespace

/-- Mirror of `item.strip()`. -/
def pyStrip (cs : List Char) : List Char :=
  ((cs.dropWhile pySpace).reverse.dropWhile pySpace).reverse

/-- Strip every segment and keep the non-empty ones, as the comprehension
`[item.strip() for item in ... if item.strip()]` does. -/
def stripNonEmpty (l : List (List Char)) : List String :=
  (l.map pyStrip).filterMap (fun cs => if cs.isEmpty then none else some (String.mk cs))

/-- Mirror of `_split_urls` (web_app.py). -/
def splitUrls (blob : String) : List String :=
  stripNonEmpty (splitlinesAux [] (replaceCommas blob.data))

/-- Splitting directly on commas and newline characters, written from the
spec wording for the refinement comparison with `splitUrls`. -/
def splitCharsAux (acc : List Char) : List Char → List (List Char)
  | [] => if acc.isEmpty then [] else [acc.reverse]
  | c :: rest =>
      if c = ',' || lineBreakChar c then acc.reverse :: splitCharsAux [] rest
      else splitCharsAux (c :: acc) rest

/-- The split described by the spec: break the blob on commas and newlines,
strip surrounding whitespace, drop empty entries. -/
def specSplitUrls (blob : String) : List String :=
  stripNonEmpty (splitCharsAux [] blob.data)

/-- The JSON payload of a `POST /api/download` request, typed: `urls` is a
single text blob, the remaining fields mirror `payload.get(...)` with
`none` for absent keys (non-string JSON values, which the handler coerces
with `str(...)`, are not modelled). -/
structure DownloadPayload where
  urls : String
  output : Option String
  template : Option String
  audio_only : Bool
  quiet : Bool
  transcript_format : Option String
  transcript_language : Option String
  deriving DecidableEq, Repr

/-- Python `x or default` for an optional string: `None` and the empty
string are falsy. -/
def pyOrStr (o : Option String) (d : String) : String :=
  match o with
  | some s => if s = "" then d else s
  | none => d

/-- Mirror of `resolve_output_dir` (downloader.py): the given directory or
`"downloads"`; the `mkdir` side effect and `resolve()` absolutization are
not modelled.  `api_download` passes `payload.get("output") or None`, so an
empty string also falls back to the default. -/
def resolveOutputDir (output : Option String) : String :=
  pyOrStr output "downloads"

/-- The transcript option validation of `api_download`: performed only when
`audio_only` is set; returns the normalized `(transcript_format,
transcript_language)` pair stored in the job, or the error message of the
400 response. -/
def validateTranscriptOptions (audio_only : Bool)
    (fmt lang : Option String) : Except String (Option String × Option String) :=
  if audio_only then
    let tf := (pyOrStr fmt "srt").toLower
    if tf ≠ "txt" ∧ tf ≠ "srt" then .error "Unsupported script format."
    else
      let rl := (pyOrStr lang "auto").toLower
      if rl ≠ "auto" ∧ rl ≠ "ko" ∧ rl ≠ "en" then .error "Unsupported language option."
      else .ok (some tf, if rl = "auto" then none else some rl)
  else .ok (none, none)

/-- Synchronous result of `api_download`: a 400 response with its message,
or a created job record together with the `total` and `output_dir` fields
of the 200 response.  The generated uuid job id and the started thread are
outside the model: `created` returns the record exactly as stored before
the runner has taken any step. -/
inductive ApiResponse where
  | badRequest (msg : String)
  | created (job : Job) (total : Nat) (output_dir : String)
  deriving DecidableEq, Repr

/-- Mirror of the `api_download` handler (web_app.py). -/
def apiDownload (payload : DownloadPayload) : ApiResponse :=
  let urls := splitUrls payload.urls
  if urls.isEmpty then .badRequest "At least one URL is required."
  else
    let output_dir := resolveOutputDir payload.output
    match validateTranscriptOptions payload.audio_only payload.transcript_format
        payload.transcript_language with
    | .error msg => .badRequest msg
    | .ok (tf, tl) =>
        .created (createJob urls.length output_dir payload.audio_only tf tl)
          urls.length output_dir

/-! Reference semantics of the `job_progress` snapshot.

CPython's `dict.copy()` is shallow: the copy holds the same list objects as
the original.  To state this, the record is modelled with its list-valued
fields as references into a heap of lists; `dict.copy()` then copies the
scalar fields and the references, i.e. it is the identity on this
representation, and the view rendered by `job_progress` dereferences the
lists at rendering time (which happens after the lock is released). -/

/-- A job record under reference semantics: scalar fields by value, the two
list fields relevant to the snapshot claim as heap references. -/
structure PyJobRec where
  status : Status
  total : Nat
  completed : Nat
  current_progress : ℚ
  current_title : String
  current_url : String
  failed_ref : Nat
  completed_files_ref : Nat
  error : Option String
  output_dir : String
  deriving DecidableEq, Repr

/-- The heap of list objects referenced by records. -/
structure PyHeap where
  files : Nat → List CompletedFile
  strs : Nat → List String

/-- Mirror of `snapshot = job.copy()`: a shallow copy duplicates scalar
values and references, so on this representation it is the identity; in
particular the copy shares every list object with the record. -/
def dictCopyShallow (j : PyJobRec) : PyJobRec := j

/-- The flattened progress view returned to the client (the fields the
claims constrain). -/
structure ProgressView where
  status : Status
  total : Nat
  completed : Nat
  progress : ℚ
  failed : List String
  completed_files : List (String × Option String)
  error : Option String
  deriving DecidableEq, Repr

/-- The rendering part of `job_progress`: computes the clamped progress and
builds fresh normalized lists by iterating the snapshot's lists, which it
dereferences from the heap at rendering time. -/
def renderView (h : PyHeap) (snap : PyJobRec) : ProgressView :=
  let pv : ℚ := if snap.total ≤ 0 then 0
    else ((snap.completed : ℚ) + snap.current_progress) / (snap.total : ℚ)
  { status := snap.status
    total := snap.total
    completed := snap.completed
    progress := max 0 (min 1 pv)
    failed := h.strs snap.failed_ref
    completed_files := (h.files snap.completed_files_ref).map
      (fun f => (f.name, f.thumbnail))
    error := snap.error }

/-- Mirror of `JOBS.get(job_id)` over an association list. -/
def jobsGet (jobs : List (String × PyJobRec)) (id : String) : Option PyJobRec :=
  match jobs with
  | [] => none
  | (k, v) :: rest => if k = id then some v else jobsGet rest id

/-- Mirror of the `job_progress` endpoint: `none` is the 404 `Unknown job
id` response, otherwise the view rendered from the shallow snapshot. -/
def jobProgressQuery (jobs : List (String × PyJobRec)) (h : PyHeap)
    (id : String) : Option ProgressView :=
  (jobsGet jobs id).map (fun job => renderView h (dictCopyShallow job))

/-- The event-sink append `job.setdefault("completed_files", []).append(...)`
under reference semantics: it mutates the heap list in place, visible
through every reference to it. -/
def heapAppendFile (h : PyHeap) (r : Nat) (f : CompletedFile) : PyHeap :=
  { h with files := fun i => if i = r then h.files i ++ [f] else h.files i }

/-! Helper lemmas about the step functions and traces. -/

theorem progressHook_pres (j : Job) (e : HookEvent) :
    (progressHook j e).total = j.total ∧
    (progressHook j e).completed = j.completed ∧
    (progressHook j e).failed = j.failed ∧
    (progressHook j e).transcripts = j.transcripts ∧
    (progressHook j e).audio_only = j.audio_only ∧
    (progressHook j e).transcript_total = j.transcript_total ∧
    (progressHook j e).transcript_completed = j.transcript_completed ∧
    (progressHook j e).transcript_started_at = j.transcript_started_at ∧
    (progressHook j e).transcript_errors = j.transcript_errors ∧
    (progressHook j e).error = j.error ∧
    (progressHook j e).output_dir = j.output_dir ∧
    (progressHook j e).reencode_h264 = j.reencode_h264 ∧
    (progressHook j e).reencode_total = j.reencode_total ∧
    (progressHook j e).reencode_completed = j.reencode_completed ∧
    ((progressHook j e).status = j.status ∨
      (j.status = Status.pending ∧ (progressHook j e).status = Status.running)) := by
  cases e with
  | downloading t u db tb =>
      simp only [progressHook]
      by_cases h : j.status = Status.pending <;> simp [h]
  | finished t u file => cases file <;> simp [progressHook]
  | other t u => simp [progressHook]

theorem itemComplete_pres (j : Job) :
    (itemComplete j).total = j.total ∧
    (itemComplete j).completed = min j.total (j.completed + 1) ∧
    (itemComplete j).current_progress = 0 ∧
    (itemComplete j).status = j.status ∧
    (itemComplete j).failed = j.failed ∧
    (itemComplete j).completed_files = j.completed_files ∧
    (itemComplete j).transcripts = j.transcripts ∧
    (itemComplete j).audio_only = j.audio_only ∧
    (itemComplete j).transcript_total = j.transcript_total ∧
    (itemComplete j).transcript_completed = j.transcript_completed ∧
    (itemComplete j).transcript_started_at = j.transcript_started_at ∧
    (itemComplete j).transcript_errors = j.transcript_errors ∧
    (itemComplete j).error = j.error ∧
    (itemComplete j).output_dir = j.output_dir ∧
    (itemComplete j).reencode_h264 = j.reencode_h264 ∧
    (itemComplete j).reencode_total = j.reencode_total ∧
    (itemComplete j).reencode_completed = j.reencode_completed := by
  simp [itemComplete]

theorem getLastD_append (a b : List α) (d : α) :
    (a ++ b).getLastD d = b.getLastD (a.getLastD d) := by
  induction a generalizing d with
  | nil => rfl
  | cons x xs ih =>
      rw [List.cons_append, List.getLastD_cons, ih, List.getLastD_cons]

theorem runHooks_pres (P : Job → Prop)
    (hP : ∀ j e, P j → P (progressHook j e)) :
    ∀ (es : List HookEvent) (j : Job), P j →
      (∀ s ∈ runHooks j es, P s) ∧ P ((runHooks j es).getLastD j) := by
  intro es
  induction es with
  | nil => intro j hj; exact ⟨by simp [runHooks], hj⟩
  | cons e rest ih =>
      intro j hj
      have h2 := hP j e hj
      obtain ⟨hmem, hlast⟩ := ih (progressHook j e) h2
      refine ⟨?_, ?_⟩
      · intro s hs
        simp only [runHooks, List.mem_cons] at hs
        rcases hs with rfl | hs
        · exact h2
        · exact hmem s hs
      · show P ((progressHook j e :: runHooks (progressHook j e) rest).getLastD j)
        rw [List.getLastD_cons]
        exact hlast

theorem fetchTrace_pres (P : Job → Prop)
    (hHook : ∀ j e, P j → P (progressHook j e))
    (hItem : ∀ j, P j → P (itemComplete j)) :
    ∀ (items : List FetchItem) (j : Job), P j →
      (∀ s ∈ fetchTrace j items, P s) ∧ P ((fetchTrace j items).getLastD j) := by
  intro items
  induction items with
  | nil => intro j hj; exact ⟨by simp [fetchTrace], hj⟩
  | cons it rest ih =>
      intro j hj
      obtain ⟨hmemH, hlastH⟩ := runHooks_pres P hHook it.events j hj
      have h2 : P (itemComplete ((runHooks j it.events).getLastD j)) :=
        hItem _ hlastH
      obtain ⟨hmemR, hlastR⟩ := ih (itemComplete ((runHooks j it.events).getLastD j)) h2
      constructor
      · intro s hs
        simp only [fetchTrace, List.mem_append, List.mem_cons] at hs
        rcases hs with hs | rfl | hs
        · exact hmemH s hs
        · exact h2
        · exact hmemR s hs
      · show P ((runHooks j it.events ++
            itemComplete ((runHooks j it.events).getLastD j) ::
              fetchTrace (itemComplete ((runHooks j it.events).getLastD j)) rest).getLastD j)
        rw [getLastD_append, List.getLastD_cons]
        exact hlastR

theorem fetchTrace_last_counts :
    ∀ (items : List FetchItem) (j : Job), j.completed ≤ j.total →
      ((fetchTrace j items).getLastD j).completed
          = min j.total (j.completed + items.length) ∧
        ((fetchTrace j items).getLastD j).total = j.total := by
  intro items
  induction items with
  | nil =>
      intro j hj
      refine ⟨?_, ?_⟩ <;> simp [fetchTrace]
      omega
  | cons it rest ih =>
      intro j hj
      have hH := runHooks_pres
        (fun s => s.completed = j.completed ∧ s.total = j.total)
        (fun s e hs => by
          obtain ⟨h1, h2, _⟩ := progressHook_pres s e
          exact ⟨by rw [h2, hs.1], by rw [h1, hs.2]⟩)
        it.events j ⟨rfl, rfl⟩
      obtain ⟨hc, ht⟩ := hH.2
      set j1 := (runHooks j it.events).getLastD j with hj1
      have hic : (itemComplete j1).completed = min j.total (j.completed + 1) := by
        simp [itemComplete, hc, ht]
      have hit : (itemComplete j1).total = j.total := by simp [itemComplete, ht]
      have hle : (itemComplete j1).completed ≤ (itemComplete j1).total := by
        rw [hic, hit]; omega
      obtain ⟨ihc, iht⟩ := ih (itemComplete j1) hle
      have hshape : (fetchTrace j (it :: rest)).getLastD j
          = (fetchTrace (itemComplete j1) rest).getLastD (itemComplete j1) := by
        show (runHooks j it.events ++ itemComplete j1 ::
            fetchTrace (itemComplete j1) rest).getLastD j
          = (fetchTrace (itemComplete j1) rest).getLastD (itemComplete j1)
        rw [getLastD_append, List.getLastD_cons]
      constructor
      · rw [hshape, ihc, hic, hit]
        simp only [List.length_cons]
        omega
      · rw [hshape, iht, hit]

/-- Terminal statuses per the spec state machine. -/
def isTerminal : Status → Bool
  | .completed => true
  | .completed_with_warnings => true
  | .error => true
  | _ => false

/-- In a state list, a terminal state can only be the last element. -/
def TermOnlyLast (l : List Job) : Prop :=
  ∀ i (h : i < l.length), isTerminal (l[i]).status = true → i + 1 = l.length

/-- The path and outcome of the first file of the list that resolves to a
transcription target (files before it are skipped by the loop). -/
def firstAttempt (env : Env) (od : String) : List CompletedFile →
    Option (String × TranscribeOutcome)
  | [] => none
  | f :: rest =>
      match resolveTarget env od f with
      | none => firstAttempt env od rest
      | some p => some (p, env.transcribe p)

/-- A file whose attempted transcription does not raise `RuntimeError`
(skipped files count as non-fatal). -/
def attemptNotFatal (env : Env) (od : String) (f : CompletedFile) : Bool :=
  match resolveTarget env od f with
  | none => true
  | some p =>
      match env.transcribe p with
      | .fatal _ => false
      | _ => true

/-- No file of the list makes the transcription capability fail fatally. -/
def noFatalB (env : Env) (od : String) (files : List CompletedFile) : Bool :=
  files.all (attemptNotFatal env od)

/-- The `transcript_errors` entries produced by the loop: one per attempted
file whose transcription raises a non-fatal exception, in order. -/
def failuresOf (env : Env) (od : String) : List CompletedFile → List TranscriptError
  | [] => []
  | f :: rest =>
      match resolveTarget env od f with
      | none => failuresOf env od rest
      | some p =>
          match env.transcribe p with
          | .failure msg => ⟨p, msg⟩ :: failuresOf env od rest
          | _ => failuresOf env od rest

/-- The transcript entries produced by the loop: one per attempted file whose
transcription returns a path, in order. -/
def producedOf (env : Env) (od : String) : List CompletedFile → List TranscriptEntry
  | [] => []
  | f :: rest =>
      match resolveTarget env od f with
      | none => producedOf env od rest
      | some p =>
          match env.transcribe p with
          | .ok (some tp) => ⟨basenameOf tp, tp, f.name⟩ :: producedOf env od rest
          | _ => producedOf env od rest

theorem transcribeFiles_fatal (env : Env) (od : String) :
    ∀ (files : List CompletedFile) (j : Job) (ts : List TranscriptEntry)
      (p : String) (msg : String),
      firstAttempt env od files = some (p, .fatal msg) →
      transcribeFiles env od j ts files =
        ⟨[{ j with status := .error, error := some (whisperLoadFailMsg msg) }],
         { j with status := .error, error := some (whisperLoadFailMsg msg) },
         true, ts⟩ := by
  intro files
  induction files with
  | nil => intro j ts p msg h; simp [firstAttempt] at h
  | cons f rest ih =>
      intro j ts p msg h
      cases hres : resolveTarget env od f with
      | none =>
          simp only [firstAttempt, hres] at h
          simp only [transcribeFiles, hres]
          exact ih j ts p msg h
      | some q =>
          simp only [firstAttempt, hres] at h
          cases hout : env.transcribe q with
          | fatal m =>
              rw [hout] at h
              simp only [Option.some.injEq, Prod.mk.injEq,
                TranscribeOutcome.fatal.injEq] at h
              simp only [transcribeFiles, hres, hout, h.2]
          | failure m => rw [hout] at h; simp at h
          | ok op => rw [hout] at h; simp at h

theorem transcribeFiles_noFatal (env : Env) (od : String) :
    ∀ (files : List CompletedFile) (j : Job) (ts : List TranscriptEntry),
      noFatalB env od files = true →
      j.transcript_completed = ts.length →
      (transcribeFiles env od j ts files).stopped = false ∧
      (transcribeFiles env od j ts files).final.transcript_errors
          = j.transcript_errors ++ failuresOf env od files ∧
      (transcribeFiles env od j ts files).transcripts
          = ts ++ producedOf env od files ∧
      (transcribeFiles env od j ts files).final.transcript_completed
          = (transcribeFiles env od j ts files).transcripts.length := by
  intro files
  induction files with
  | nil =>
      intro j ts _ hc
      simp [transcribeFiles, failuresOf, producedOf, hc]
  | cons f rest ih =>
      intro j ts hnf hc
      have hnf2 : noFatalB env od rest = true := by
        simp only [noFatalB, List.all_cons, Bool.and_eq_true] at hnf
        exact hnf.2
      have hnf1 : attemptNotFatal env od f = true := by
        simp only [noFatalB, List.all_cons, Bool.and_eq_true] at hnf
        exact hnf.1
      cases hres : resolveTarget env od f with
      | none =>
          simp only [transcribeFiles, hres]
          obtain ⟨h1, h2, h3, h4⟩ := ih j ts hnf2 hc
          refine ⟨h1, ?_, ?_, h4⟩
          · rw [h2]; simp only [failuresOf, hres]
          · rw [h3]; simp only [producedOf, hres]
      | some p =>
          simp only [attemptNotFatal, hres] at hnf1
          cases hout : env.transcribe p with
          | fatal m => rw [hout] at hnf1; simp at hnf1
          | failure m =>
              simp only [transcribeFiles, hres, hout]
              obtain ⟨h1, h2, h3, h4⟩ :=
                ih { j with transcript_errors :=
                      j.transcript_errors ++ [(⟨p, m⟩ : TranscriptError)] }
                  ts hnf2 hc
              refine ⟨h1, ?_, ?_, h4⟩
              · rw [h2]
                simp only [failuresOf, hres, hout]
                simp
              · rw [h3]; simp only [producedOf, hres, hout]
          | ok op =>
              simp only [transcribeFiles, hres, hout]
              cases op with
              | none =>
                  obtain ⟨h1, h2, h3, h4⟩ :=
                    ih { j with transcript_completed := ts.length } ts hnf2 rfl
                  refine ⟨h1, ?_, ?_, h4⟩
                  · rw [h2]; simp only [failuresOf, hres, hout]
                  · rw [h3]; simp only [producedOf, hres, hout]
              | some tp =>
                  obtain ⟨h1, h2, h3, h4⟩ :=
                    ih { j with transcript_completed :=
                          (ts ++ [(⟨basenameOf tp, tp, f.name⟩ : TranscriptEntry)]).length }
                      (ts ++ [(⟨basenameOf tp, tp, f.name⟩ : TranscriptEntry)]) hnf2 rfl
                  refine ⟨h1, ?_, ?_, h4⟩
                  · rw [h2]; simp only [failuresOf, hres, hout]
                  · rw [h3]
                    simp only [producedOf, hres, hout]
                    simp

theorem termOnlyLast_nil : TermOnlyLast [] := by
  intro i h
  simp at h

theorem termOnlyLast_single (j : Job) : TermOnlyLast [j] := by
  intro i h _
  simp only [List.length_singleton] at h ⊢
  omega

theorem termOnlyLast_cons (j : Job) (l : List Job)
    (hj : isTerminal j.status = false) (hl : TermOnlyLast l) :
    TermOnlyLast (j :: l) := by
  intro i h hterm
  cases i with
  | zero =>
      rw [List.getElem_cons_zero, hj] at hterm
      cases hterm
  | succ n =>
      rw [List.getElem_cons_succ] at hterm
      have hn : n < l.length := by
        simp only [List.length_cons] at h
        omega
      have := hl n hn hterm
      simp only [List.length_cons]
      omega

theorem termOnlyLast_of_allNT (l : List Job)
    (h : ∀ s ∈ l, isTerminal s.status = false) : TermOnlyLast l := by
  intro i hi hterm
  have := h _ (List.getElem_mem hi)
  rw [this] at hterm
  cases hterm

theorem termOnlyLast_append (A B : List Job)
    (hA : ∀ s ∈ A, isTerminal s.status = false) (hB : TermOnlyLast B) :
    TermOnlyLast (A ++ B) := by
  intro i h hterm
  rw [List.length_append] at h
  by_cases hi : i < A.length
  · rw [List.getElem_append_left hi] at hterm
    have := hA _ (List.getElem_mem hi)
    rw [this] at hterm
    cases hterm
  · push_neg at hi
    rw [List.getElem_append_right hi] at hterm
    have := hB (i - A.length) (by omega) hterm
    rw [List.length_append]
    omega

theorem transcribeFiles_status (env : Env) (od : String) :
    ∀ (files : List CompletedFile) (j : Job) (ts : List TranscriptEntry),
      isTerminal j.status = false →
      TermOnlyLast (transcribeFiles env od j ts files).trace ∧
      ((transcribeFiles env od j ts files).stopped = false →
        (∀ s ∈ (transcribeFiles env od j ts files).trace,
            isTerminal s.status = false) ∧
        isTerminal (transcribeFiles env od j ts files).final.status = false) := by
  intro files
  induction files with
  | nil =>
      intro j ts hj
      refine ⟨termOnlyLast_nil, fun _ => ⟨?_, hj⟩⟩
      intro s hs
      simp [transcribeFiles] at hs
  | cons f rest ih =>
      intro j ts hj
      cases hres : resolveTarget env od f with
      | none =>
          simp only [transcribeFiles, hres]
          exact ih j ts hj
      | some p =>
          cases hout : env.transcribe p with
          | fatal m =>
              simp only [transcribeFiles, hres, hout]
              exact ⟨termOnlyLast_single _, fun h => by cases h⟩
          | failure m =>
              simp only [transcribeFiles, hres, hout]
              obtain ⟨h1, h2⟩ :=
                ih { j with transcript_errors :=
                      j.transcript_errors ++ [(⟨p, m⟩ : TranscriptError)] } ts hj
              refine ⟨termOnlyLast_cons _ _ hj h1, ?_⟩
              intro hst
              obtain ⟨hmem, hfin⟩ := h2 hst
              refine ⟨?_, hfin⟩
              intro s hs
              rcases List.mem_cons.mp hs with rfl | hs
              · exact hj
              · exact hmem s hs
          | ok op =>
              simp only [transcribeFiles, hres, hout]
              cases op with
              | none =>
                  obtain ⟨h1, h2⟩ :=
                    ih { j with transcript_completed := ts.length } ts hj
                  refine ⟨termOnlyLast_cons _ _ hj h1, ?_⟩
                  intro hst
                  obtain ⟨hmem, hfin⟩ := h2 hst
                  refine ⟨?_, hfin⟩
                  intro s hs
                  rcases List.mem_cons.mp hs with rfl | hs
                  · exact hj
                  · exact hmem s hs
              | some tp =>
                  obtain ⟨h1, h2⟩ :=
                    ih { j with transcript_completed :=
                          (ts ++ [(⟨basenameOf tp, tp, f.name⟩ : TranscriptEntry)]).length }
                      (ts ++ [(⟨basenameOf tp, tp, f.name⟩ : TranscriptEntry)]) hj
                  refine ⟨termOnlyLast_cons _ _ hj h1, ?_⟩
                  intro hst
                  obtain ⟨hmem, hfin⟩ := h2 hst
                  refine ⟨?_, hfin⟩
                  intro s hs
                  rcases List.mem_cons.mp hs with rfl | hs
                  · exact hj
                  · exact hmem s hs

theorem transcribeFiles_pres (env : Env) (od : String) (P : Job → Prop)
    (hFatal : ∀ (j : Job) (msg : String), P j →
      P { j with status := Status.error, error := some (whisperLoadFailMsg msg) })
    (hFail : ∀ (j : Job) (p msg : String), P j →
      P { j with transcript_errors := j.transcript_errors ++ [⟨p, msg⟩] })
    (hOk : ∀ (j : Job) (n : Nat), P j → P { j with transcript_completed := n }) :
    ∀ (files : List CompletedFile) (j : Job) (ts : List TranscriptEntry), P j →
      (∀ s ∈ (transcribeFiles env od j ts files).trace, P s) ∧
      P (transcribeFiles env od j ts files).final := by
  intro files
  induction files with
  | nil =>
      intro j ts hj
      exact ⟨by intro s hs; simp [transcribeFiles] at hs, hj⟩
  | cons f rest ih =>
      intro j ts hj
      cases hres : resolveTarget env od f with
      | none =>
          simp only [transcribeFiles, hres]
          exact ih j ts hj
      | some p =>
          cases hout : env.transcribe p with
          | fatal m =>
              simp only [transcribeFiles, hres, hout]
              have h2 := hFatal j m hj
              refine ⟨?_, h2⟩
              intro s hs
              rcases List.mem_cons.mp hs with rfl | hs
              · exact h2
              · simp at hs
          | failure m =>
              simp only [transcribeFiles, hres, hout]
              have h2 := hFail j p m hj
              obtain ⟨hmem, hfin⟩ := ih _ ts h2
              refine ⟨?_, hfin⟩
              intro s hs
              rcases List.mem_cons.mp hs with rfl | hs
              · exact h2
              · exact hmem s hs
          | ok op =>
              simp only [transcribeFiles, hres, hout]
              cases op with
              | none =>
                  have h2 := hOk j ts.length hj
                  obtain ⟨hmem, hfin⟩ := ih _ ts h2
                  refine ⟨?_, hfin⟩
                  intro s hs
                  rcases List.mem_cons.mp hs with rfl | hs
                  · exact h2
                  · exact hmem s hs
              | some tp =>
                  have h2 := hOk j
                    (ts ++ [(⟨basenameOf tp, tp, f.name⟩ : TranscriptEntry)]).length hj
                  obtain ⟨hmem, hfin⟩ :=
                    ih _ (ts ++ [(⟨basenameOf tp, tp, f.name⟩ : TranscriptEntry)]) h2
                  refine ⟨?_, hfin⟩
                  intro s hs
                  rcases List.mem_cons.mp hs with rfl | hs
                  · exact h2
                  · exact hmem s hs

theorem transcribeFiles_inv (env : Env) (od : String) :
    ∀ (files : List CompletedFile) (j : Job) (ts : List TranscriptEntry),
      j.completed ≤ j.total →
      j.reencode_completed ≤ j.reencode_total →
      j.transcript_completed ≤ j.transcript_total →
      ts.length + files.length ≤ j.transcript_total →
      (∀ s ∈ (transcribeFiles env od j ts files).trace,
        s.completed ≤ s.total ∧ s.reencode_completed ≤ s.reencode_total ∧
          s.transcript_completed ≤ s.transcript_total) ∧
      ((transcribeFiles env od j ts files).final.completed
          ≤ (transcribeFiles env od j ts files).final.total ∧
        (transcribeFiles env od j ts files).final.reencode_completed
          ≤ (transcribeFiles env od j ts files).final.reencode_total ∧
        (transcribeFiles env od j ts files).final.transcript_completed
          ≤ (transcribeFiles env od j ts files).final.transcript_total) := by
  intro files
  induction files with
  | nil =>
      intro j ts h1 h2 h3 _
      exact ⟨by intro s hs; simp [transcribeFiles] at hs, h1, h2, h3⟩
  | cons f rest ih =>
      intro j ts h1 h2 h3 h4
      simp only [List.length_cons] at h4
      cases hres : resolveTarget env od f with
      | none =>
          simp only [transcribeFiles, hres]
          exact ih j ts h1 h2 h3 (by omega)
      | some p =>
          cases hout : env.transcribe p with
          | fatal m =>
              simp only [transcribeFiles, hres, hout]
              refine ⟨?_, h1, h2, h3⟩
              intro s hs
              rcases List.mem_cons.mp hs with rfl | hs
              · exact ⟨h1, h2, h3⟩
              · simp at hs
          | failure m =>
              simp only [transcribeFiles, hres, hout]
              obtain ⟨hmem, hfin⟩ :=
                ih { j with transcript_errors :=
                      j.transcript_errors ++ [(⟨p, m⟩ : TranscriptError)] }
                  ts h1 h2 h3 (by simpa using by omega)
              refine ⟨?_, hfin⟩
              intro s hs
              rcases List.mem_cons.mp hs with rfl | hs
              · exact ⟨h1, h2, h3⟩
              · exact hmem s hs
          | ok op =>
              simp only [transcribeFiles, hres, hout]
              cases op with
              | none =>
                  obtain ⟨hmem, hfin⟩ :=
                    ih { j with transcript_completed := ts.length } ts
                      h1 h2 (by simpa using by omega) (by simpa using by omega)
                  refine ⟨?_, hfin⟩
                  intro s hs
                  rcases List.mem_cons.mp hs with rfl | hs
                  · exact ⟨h1, h2, by simpa using by omega⟩
                  · exact hmem s hs
              | some tp =>
                  obtain ⟨hmem, hfin⟩ :=
                    ih { j with transcript_completed :=
                          (ts ++ [(⟨basenameOf tp, tp, f.name⟩ : TranscriptEntry)]).length }
                      (ts ++ [(⟨basenameOf tp, tp, f.name⟩ : TranscriptEntry)])
                      h1 h2 (by simpa using by omega) (by simpa using by omega)
                  refine ⟨?_, hfin⟩
                  intro s hs
                  rcases List.mem_cons.mp hs with rfl | hs
                  · exact ⟨h1, h2, by simpa using by omega⟩
                  · exact hmem s hs

theorem reencodeTrace_facts (j : Job) (k : Nat) :
    ∀ s ∈ reencodeTrace j k,
      s.status = Status.reencoding ∧ s.reencode_total = k ∧
      s.reencode_completed ≤ k ∧ s.total = j.total ∧ s.completed = j.completed ∧
      s.failed = j.failed ∧ s.transcripts = j.transcripts ∧
      s.audio_only = j.audio_only ∧ s.transcript_total = j.transcript_total ∧
      s.transcript_completed = j.transcript_completed ∧
      s.transcript_errors = j.transcript_errors ∧
      s.completed_files = j.completed_files ∧ s.error = j.error ∧
      s.output_dir = j.output_dir := by
  intro s hs
  simp only [reencodeTrace, List.mem_cons, List.mem_map, List.mem_range] at hs
  rcases hs with rfl | ⟨i, hi, rfl⟩
  · simp [reencodeInit]
  · simp [reencodeInit]
    omega

/-- The counter invariants of the spec (section 8). -/
def JobInv (j : Job) : Prop :=
  j.completed ≤ j.total ∧ j.reencode_completed ≤ j.reencode_total ∧
    j.transcript_completed ≤ j.transcript_total

theorem finalize_facts (j : Job) (ts : List TranscriptEntry) :
    (finalize j ts).status = Status.completed ∧
    (finalize j ts).completed = j.total ∧
    (finalize j ts).total = j.total ∧
    (finalize j ts).current_progress = 0 ∧
    (finalize j ts).failed = j.failed ∧
    (finalize j ts).transcript_errors = j.transcript_errors ∧
    (finalize j ts).transcript_completed = j.transcript_completed ∧
    (finalize j ts).transcript_total = j.transcript_total ∧
    (finalize j ts).reencode_completed = j.reencode_completed ∧
    (finalize j ts).reencode_total = j.reencode_total ∧
    (finalize j ts).transcripts = (if ts.isEmpty then j.transcripts else ts) ∧
    (finalize j ts).completed_files = j.completed_files ∧
    (finalize j ts).audio_only = j.audio_only ∧
    (finalize j ts).error = j.error ∧
    (finalize j ts).output_dir = j.output_dir := by
  unfold finalize
  cases h1 : ts.isEmpty <;> cases h2 : j.transcript_errors.isEmpty <;> simp [h1, h2]

theorem progressValue_bounds (j : Job) :
    0 ≤ progressValue j ∧ progressValue j ≤ 1 := by
  unfold progressValue
  constructor
  · exact le_max_left 0 _
  · apply max_le
    · norm_num
    · exact min_le_left 1 _

theorem jobInv_progressHook (j : Job) (e : HookEvent) (h : JobInv j) :
    JobInv (progressHook j e) := by
  obtain ⟨h1, h2, h3, h4, h5, h6, h7, -⟩ := progressHook_pres j e
  exact ⟨by rw [h2, h1]; exact h.1, by rw [progressHook_pres j e |>.2.2.2.2.2.2.2.2.2.2.2.2.1,
    progressHook_pres j e |>.2.2.2.2.2.2.2.2.2.2.2.2.2.1]; exact h.2.1,
    by rw [h7, h6]; exact h.2.2⟩

theorem jobInv_itemComplete (j : Job) (h : JobInv j) : JobInv (itemComplete j) := by
  refine ⟨?_, h.2.1, h.2.2⟩
  simp [itemComplete]

theorem jobInv_fetchFinal (j0 : Job) (items : List FetchItem) (h : JobInv j0) :
    JobInv (fetchFinal j0 items) := by
  have := fetchTrace_pres JobInv jobInv_progressHook jobInv_itemComplete items j0 h
  exact this.2

theorem afterReencode_pres (env : Env) (od : String) (jF : Job) :
    (afterReencode env od jF).total = jF.total ∧
    (afterReencode env od jF).completed = jF.completed ∧
    (afterReencode env od jF).failed = jF.failed ∧
    (afterReencode env od jF).transcripts = jF.transcripts ∧
    (afterReencode env od jF).audio_only = jF.audio_only ∧
    (afterReencode env od jF).completed_files = jF.completed_files ∧
    (afterReencode env od jF).transcript_total = jF.transcript_total ∧
    (afterReencode env od jF).transcript_completed = jF.transcript_completed ∧
    (afterReencode env od jF).transcript_errors = jF.transcript_errors ∧
    (afterReencode env od jF).error = jF.error ∧
    (afterReencode env od jF).output_dir = jF.output_dir ∧
    (afterReencode env od jF).current_progress = jF.current_progress ∧
    ((afterReencode env od jF).status = jF.status ∨
      (afterReencode env od jF).status = Status.reencoding) := by
  unfold afterReencode
  split <;> simp [reencodeInit]

theorem jobInv_afterReencode (env : Env) (od : String) (jF : Job) (h : JobInv jF) :
    JobInv (afterReencode env od jF) := by
  unfold afterReencode
  split
  · exact h
  · exact ⟨h.1, le_refl _, h.2.2⟩

theorem jobInv_transcribeInit (env : Env) (j : Job) (h : JobInv j) :
    JobInv (transcribeInit env j) := by
  exact ⟨h.1, h.2.1, by simp [transcribeInit]⟩

theorem jobInv_finalize (j : Job) (ts : List TranscriptEntry) (h : JobInv j) :
    JobInv (finalize j ts) := by
  obtain ⟨-, h2, h3, -, -, -, h7, h8, h9, h10, -⟩ := finalize_facts j ts
  exact ⟨by rw [h2, h3], by rw [h9, h10]; exact h.2.1, by rw [h7, h8]; exact h.2.2⟩

/-- C5: for every job and every reachable snapshot along the runner's
mutation trace, `0 ≤ completed ≤ total`,
`0 ≤ reencode_completed ≤ reencode_total`,
`0 ≤ transcript_completed ≤ transcript_total`, and the derived progress
value lies in `[0, 1]`. -/
theorem claim_C5 (env : Env) (od : String) (total : Nat) (odir : String)
    (ao : Bool) (tf tl : Option String) (items : List FetchItem) :
    ∀ s ∈ runJobTrace env od (createJob total odir ao tf tl) items,
      0 ≤ s.completed ∧ s.completed ≤ s.total ∧
      0 ≤ s.reencode_completed ∧ s.reencode_completed ≤ s.reencode_total ∧
      0 ≤ s.transcript_completed ∧ s.transcript_completed ≤ s.transcript_total ∧
      0 ≤ progressValue s ∧ progressValue s ≤ 1 := by
  intro s hs
  have hpv := progressValue_bounds s
  suffices h : JobInv s by
    exact ⟨Nat.zero_le _, h.1, Nat.zero_le _, h.2.1, Nat.zero_le _, h.2.2,
      hpv.1, hpv.2⟩
  have hInv0 : JobInv (createJob total odir ao tf tl) := by
    refine ⟨?_, ?_, ?_⟩ <;> simp [createJob]
  simp only [runJobTrace, List.mem_cons, List.mem_append,
    List.mem_singleton] at hs
  set j0 := createJob total odir ao tf tl with hj0
  set jF := fetchFinal j0 items with hjF
  have hInvF : JobInv jF := jobInv_fetchFinal j0 items hInv0
  have hInvA : JobInv (afterReencode env od jF) := jobInv_afterReencode env od jF hInvF
  have hInvB : JobInv (beforeTranscribe env od jF) := by
    unfold beforeTranscribe
    split
    · exact jobInv_transcribeInit env _ hInvA
    · exact hInvA
  have hbt : transcribeEntered jF = true →
      (beforeTranscribe env od jF).transcript_total = jF.completed_files.length := by
    intro h
    unfold beforeTranscribe
    rw [if_pos h]
    show (afterReencode env od jF).completed_files.length = _
    rw [(afterReencode_pres env od jF).2.2.2.2.2.1]
  have hInvRfinal : JobInv (transcribeResult env od jF).final := by
    unfold transcribeResult
    split
    · next hEnt =>
        exact (transcribeFiles_inv env od jF.completed_files
          (beforeTranscribe env od jF) [] hInvB.1 hInvB.2.1 hInvB.2.2
          (by rw [hbt hEnt]; simp)).2
    · exact hInvB
  rcases hs with (((((rfl | hs) | (rfl | hs)) | hs) | hs) | hs) | hs
  · exact hInv0
  · exact (fetchTrace_pres JobInv jobInv_progressHook jobInv_itemComplete
      items j0 hInv0).1 s hs
  · exact hInvF
  · simp at hs
  · unfold reencStates at hs
    split at hs
    · simp at hs
    · obtain ⟨-, hrt, hrc, hto, hco, -, -, -, htt, htc, -⟩ :=
        reencodeTrace_facts jF (reencTargets env od jF).length s hs
      exact ⟨by rw [hco, hto]; exact hInvF.1, by rw [hrt]; exact hrc,
        by rw [htc, htt]; exact hInvF.2.2⟩
  · unfold transcribeInitStates at hs
    split at hs
    · rw [List.mem_singleton] at hs
      subst hs
      exact jobInv_transcribeInit env _ hInvA
    · simp at hs
  · unfold transcribeResult at hs
    split at hs
    · next hEnt =>
        exact (transcribeFiles_inv env od jF.completed_files
          (beforeTranscribe env od jF) [] hInvB.1 hInvB.2.1 hInvB.2.2
          (by rw [hbt hEnt]; simp)).1 s hs
    · simp at hs
  · split at hs
    · simp at hs
    · rw [List.mem_singleton] at hs
      subst hs
      exact jobInv_finalize _ _ hInvRfinal

theorem statusPR_progressHook (j : Job) (e : HookEvent)
    (hj : j.status = Status.pending ∨ j.status = Status.running) :
    (progressHook j e).status = Status.pending ∨
      (progressHook j e).status = Status.running := by
  rcases (progressHook_pres j e).2.2.2.2.2.2.2.2.2.2.2.2.2.2 with h | h
  · rw [h]; exact hj
  · exact Or.inr h.2

theorem statusPR_itemComplete (j : Job)
    (hj : j.status = Status.pending ∨ j.status = Status.running) :
    (itemComplete j).status = Status.pending ∨
      (itemComplete j).status = Status.running := by
  rw [(itemComplete_pres j).2.2.2.1]
  exact hj

theorem runJobTrace_termOnlyLast (env : Env) (od : String) (j0 : Job)
    (items : List FetchItem) (h0 : j0.status = Status.pending) :
    TermOnlyLast (runJobTrace env od j0 items) := by
  have hPR0 : j0.status = Status.pending ∨ j0.status = Status.running := Or.inl h0
  have hfetch := fetchTrace_pres
    (fun s => s.status = Status.pending ∨ s.status = Status.running)
    statusPR_progressHook statusPR_itemComplete items j0 hPR0
  have hPRF : (fetchFinal j0 items).status = Status.pending ∨
      (fetchFinal j0 items).status = Status.running := hfetch.2
  have hNTF : isTerminal (fetchFinal j0 items).status = false := by
    rcases hPRF with h | h <;> rw [h] <;> rfl
  have hNTbt : isTerminal (beforeTranscribe env od (fetchFinal j0 items)).status
      = false := by
    unfold beforeTranscribe
    split
    · rfl
    · rcases (afterReencode_pres env od (fetchFinal j0 items)).2.2.2.2.2.2.2.2.2.2.2.2
        with h | h
      · rw [h]; exact hNTF
      · rw [h]; rfl
  have hA : ∀ s ∈ (j0 :: fetchTrace j0 items ++ [fetchFinal j0 items] ++
      reencStates env od (fetchFinal j0 items) ++
      transcribeInitStates env od (fetchFinal j0 items)),
      isTerminal s.status = false := by
    intro s hs
    simp only [List.mem_cons, List.mem_append, List.mem_singleton] at hs
    rcases hs with (((rfl | hs) | (rfl | hs)) | hs) | hs
    · rw [h0]; rfl
    · rcases hfetch.1 s hs with h | h <;> rw [h] <;> rfl
    · exact hNTF
    · simp at hs
    · unfold reencStates at hs
      split at hs
      · simp at hs
      · rw [(reencodeTrace_facts _ _ s hs).1]; rfl
    · unfold transcribeInitStates at hs
      split at hs
      · rw [List.mem_singleton] at hs
        subst hs
        rfl
      · simp at hs
  have hBtrace : TermOnlyLast (transcribeResult env od (fetchFinal j0 items)).trace ∧
      ((transcribeResult env od (fetchFinal j0 items)).stopped = false →
        ∀ s ∈ (transcribeResult env od (fetchFinal j0 items)).trace,
          isTerminal s.status = false) := by
    unfold transcribeResult
    split
    · obtain ⟨h1, h2⟩ := transcribeFiles_status env od
        (fetchFinal j0 items).completed_files
        (beforeTranscribe env od (fetchFinal j0 items)) [] hNTbt
      exact ⟨h1, fun h => (h2 h).1⟩
    · refine ⟨termOnlyLast_nil, ?_⟩
      intro _ s hs
      simp at hs
  have hB : TermOnlyLast ((transcribeResult env od (fetchFinal j0 items)).trace ++
      (if (transcribeResult env od (fetchFinal j0 items)).stopped then []
       else [finalize (transcribeResult env od (fetchFinal j0 items)).final
        (transcribeResult env od (fetchFinal j0 items)).transcripts])) := by
    cases hstop : (transcribeResult env od (fetchFinal j0 items)).stopped
    · rw [if_neg (by simp)]
      exact termOnlyLast_append _ _ (hBtrace.2 hstop) (termOnlyLast_single _)
    · rw [if_pos rfl, List.append_nil]
      exact hBtrace.1
  have htr : runJobTrace env od j0 items =
      (j0 :: fetchTrace j0 items ++ [fetchFinal j0 items] ++
        reencStates env od (fetchFinal j0 items) ++
        transcribeInitStates env od (fetchFinal j0 items)) ++
      ((transcribeResult env od (fetchFinal j0 items)).trace ++
        (if (transcribeResult env od (fetchFinal j0 items)).stopped then []
         else [finalize (transcribeResult env od (fetchFinal j0 items)).final
          (transcribeResult env od (fetchFinal j0 items)).transcripts])) := by
    simp [runJobTrace, List.append_assoc]
  rw [htr]
  exact termOnlyLast_append _ _ hA hB

/-- C4: once a state of the runner's mutation trace has a terminal status
(`completed`, `completed_with_warnings` or `error`), every later state of the
trace is identical to it — no step of the stage runner or event sink mutates
the record again, so all subsequent snapshots agree. -/
theorem claim_C4 (env : Env) (od : String) (total : Nat) (odir : String)
    (ao : Bool) (tf tl : Option String) (items : List FetchItem) (i k : Nat)
    (hi : i < (runJobTrace env od (createJob total odir ao tf tl) items).length)
    (hk : k < (runJobTrace env od (createJob total odir ao tf tl) items).length)
    (hik : i ≤ k)
    (hterm : isTerminal
      ((runJobTrace env od (createJob total odir ao tf tl) items)[i]).status = true) :
    (runJobTrace env od (createJob total odir ao tf tl) items)[k]
      = (runJobTrace env od (createJob total odir ao tf tl) items)[i] := by
  have hTOL := runJobTrace_termOnlyLast env od (createJob total odir ao tf tl)
    items (by simp [createJob])
  have hlen := hTOL i hi hterm
  have hki : k = i := by omega
  subst hki
  rfl

/-! Concrete runs used by the claim-specific theorems. -/

/-- Environment for the C1 run: the fetched file exists, transcription of it
fails with an ordinary (non-fatal) exception. -/
def envC1 : Env :=
  { pathExists := fun p => p == "out/a.mp3"
    isInstagram := fun _ _ => false
    transcribe := fun _ => .failure "boom"
    startTime := 0 }

/-- The completed file of the C1 run. -/
def fileC1 : CompletedFile := ⟨"a.mp3", none, some "out/a.mp3"⟩

/-- One audio-only url whose fetch succeeds and produces one file. -/
def itemsC1 : List FetchItem :=
  [⟨"https://a",
    [.downloading "t" "https://a" 5 10, .finished "t" "https://a" (some fileC1)],
    true⟩]

/-- The final record of the C1 run. -/
def lastC1 : Job :=
  (runJobTrace envC1 "out" (createJob 1 "out" true (some "srt") none)
    itemsC1).getLastD default

/-- C1 (code-bug exhibit): a single audio-only url whose per-file
transcription fails ends the run with a non-empty `transcript_errors` and yet
`status = completed`: the finalization block of `_run_download_job` assigns
`completed_with_warnings` and then unconditionally overwrites it with
`completed` on the next line, contradicting the spec (which the frontend's
handling of `completed_with_warnings` corroborates).  The
`completed = total` and `current_progress = 0` parts of the claim do hold. -/
theorem claim_C1 :
    lastC1.transcript_errors = [⟨"out/a.mp3", "boom"⟩] ∧
    lastC1.status = Status.completed ∧
    lastC1.completed = lastC1.total ∧
    lastC1.current_progress = 0 := by
  decide

/-- Environment for the C2 run: the fetched file exists, transcription fails
with an ordinary exception. -/
def envC2 : Env :=
  { pathExists := fun p => p == "out/b.mp3"
    isInstagram := fun _ _ => false
    transcribe := fun _ => .failure "oops"
    startTime := 0 }

/-- The completed file of the C2 run. -/
def fileC2 : CompletedFile := ⟨"b.mp3", none, some "out/b.mp3"⟩

/-- The record state at entry of the transcribe stage for the C2 run. -/
def jC2 : Job :=
  transcribeInit envC2
    { createJob 1 "out" true (some "srt") none with completed_files := [fileC2] }

/-- C2 counterexample: in a transcribe stage over one file whose
transcription fails, the failure is recorded (so the attempt happened) and
the loop runs to completion, but `transcript_completed` is still `0`
afterwards — the `except` branch `continue`s past the counter update, so the
counter is not incremented after a failed attempt, refuting the claim that
it is incremented after each attempt regardless of outcome. -/
theorem claim_C2_counterexample :
    (transcribeFiles envC2 "out" jC2 [] [fileC2]).final.transcript_errors.length = 1 ∧
    (transcribeFiles envC2 "out" jC2 [] [fileC2]).final.transcript_completed = 0 ∧
    (transcribeFiles envC2 "out" jC2 [] [fileC2]).stopped = false := by
  decide

/-- C2 (amended): for every transcribe stage with no fatal outcome, a
per-file failure is recorded in `transcript_errors` and the loop continues
with the next file (all files are processed and the loop is not stopped);
`transcript_completed` is set to the number of transcripts produced so far
after each non-failing attempt, so after the loop it equals the length of
the produced-transcripts list, and failed or skipped attempts leave it
unchanged. -/
theorem claim_C2 (env : Env) (od : String) (j : Job) (ts : List TranscriptEntry)
    (files : List CompletedFile)
    (hnf : noFatalB env od files = true)
    (hc : j.transcript_completed = ts.length) :
    (transcribeFiles env od j ts files).stopped = false ∧
    (transcribeFiles env od j ts files).final.transcript_errors
        = j.transcript_errors ++ failuresOf env od files ∧
    (transcribeFiles env od j ts files).transcripts = ts ++ producedOf env od files ∧
    (transcribeFiles env od j ts files).final.transcript_completed
        = (transcribeFiles env od j ts files).transcripts.length :=
  transcribeFiles_noFatal env od files j ts hnf hc

/-- Witness for the amended C2 at the concrete one-failing-file input. -/
theorem claim_C2_witness :
    noFatalB envC2 "out" [fileC2] = true ∧
    jC2.transcript_completed = ([] : List TranscriptEntry).length ∧
    ((transcribeFiles envC2 "out" jC2 [] [fileC2]).stopped = false ∧
      (transcribeFiles envC2 "out" jC2 [] [fileC2]).final.transcript_errors
          = jC2.transcript_errors ++ failuresOf envC2 "out" [fileC2] ∧
      (transcribeFiles envC2 "out" jC2 [] [fileC2]).transcripts
          = [] ++ producedOf envC2 "out" [fileC2] ∧
      (transcribeFiles envC2 "out" jC2 [] [fileC2]).final.transcript_completed
          = (transcribeFiles envC2 "out" jC2 [] [fileC2]).transcripts.length) :=
  ⟨by decide, by decide,
    claim_C2 envC2 "out" jC2 [] [fileC2] (by decide) (by decide)⟩

/-- A trivial environment: no file exists, transcription yields nothing. -/
def envTriv : Env :=
  { pathExists := fun _ => false
    isInstagram := fun _ _ => false
    transcribe := fun _ => .ok none
    startTime := 0 }

/-- Witness for C4: the empty-batch run ends in a terminal `completed` state
at index 2, and the theorem applied at `i = k = 2` holds there. -/
theorem claim_C4_witness :
    isTerminal ((runJobTrace envTriv "out" (createJob 0 "out" false none none)
        []).get ⟨2, by decide⟩).status = true ∧
    ((runJobTrace envTriv "out" (createJob 0 "out" false none none) []).get
        ⟨2, by decide⟩ =
      (runJobTrace envTriv "out" (createJob 0 "out" false none none) []).get
        ⟨2, by decide⟩) :=
  ⟨by decide,
    claim_C4 envTriv "out" 0 "out" false none none [] 2 2 (by decide) (by decide)
      (le_refl 2) (by decide)⟩

/-- Witness for C5: the created record itself is a member of the trace of the
empty-batch run, and the invariants hold at it. -/
theorem claim_C5_witness :
    (createJob 0 "out" false none none) ∈
      runJobTrace envTriv "out" (createJob 0 "out" false none none) [] ∧
    (0 ≤ (createJob 0 "out" false none none).completed ∧
      (createJob 0 "out" false none none).completed
        ≤ (createJob 0 "out" false none none).total ∧
      0 ≤ (createJob 0 "out" false none none).reencode_completed ∧
      (createJob 0 "out" false none none).reencode_completed
        ≤ (createJob 0 "out" false none none).reencode_total ∧
      0 ≤ (createJob 0 "out" false none none).transcript_completed ∧
      (createJob 0 "out" false none none).transcript_completed
        ≤ (createJob 0 "out" false none none).transcript_total ∧
      0 ≤ progressValue (createJob 0 "out" false none none) ∧
      progressValue (createJob 0 "out" false none none) ≤ 1) :=
  ⟨by decide,
    claim_C5 envTriv "out" 0 "out" false none none [] _ (by decide)⟩

/-- The derived progress described by the spec: the fraction
`(completed + current_progress) / total` clamped to `[0, 1]`, and `0`
instead of a division when `total = 0`. -/
def progressSpec (j : Job) : ℚ :=
  if j.total = 0 then 0
  else max 0 (min 1 (((j.completed : ℚ) + j.current_progress) / (j.total : ℚ)))

/-- C7: the progress query computes the overall fraction as
`(completed + current_progress) / total` clamped to `[0, 1]`, returns `0`
instead of dividing when `total = 0`, and the result always lies in
`[0, 1]`. -/
theorem claim_C7 (j : Job) :
    progressValue j = progressSpec j ∧
    (j.total = 0 → progressValue j = 0) ∧
    0 ≤ progressValue j ∧ progressValue j ≤ 1 := by
  have hb := progressValue_bounds j
  have hz : j.total = 0 → progressValue j = 0 := by
    intro h
    simp only [progressValue]
    rw [if_pos (show j.total ≤ 0 by omega)]
    norm_num
  refine ⟨?_, hz, hb.1, hb.2⟩
  by_cases h : j.total = 0
  · rw [hz h]
    simp only [progressSpec]
    rw [if_pos h]
  · simp only [progressValue, progressSpec]
    rw [if_neg h, if_neg (show ¬j.total ≤ 0 by omega)]

/-- Witness for C7, discharging the `total = 0` hypothesis at the default
record. -/
theorem claim_C7_witness :
    (default : Job).total = 0 ∧ progressValue (default : Job) = 0 :=
  ⟨rfl, (claim_C7 default).2.1 rfl⟩

/-- A submission with an unrecognized transcript format but with
`audio_only = false`. -/
def pC8 : DownloadPayload :=
  { urls := "https://a"
    output := none
    template := none
    audio_only := false
    quiet := true
    transcript_format := some "bogus"
    transcript_language := none }

/-- C8 counterexample: a request carrying the unrecognized transcript format
`"bogus"` is not rejected when `audio_only` is false — a job record is
created and returned, because `api_download` validates the format and
language only inside `if audio_only:`. -/
theorem claim_C8_counterexample :
    pC8.transcript_format = some "bogus" ∧
    apiDownload pC8 =
      .created (createJob 1 "downloads" false none none) 1 "downloads" := by
  decide

/-- C8 (amended): an empty URL list is rejected synchronously before any
record is created; when audio-only mode is requested, an unrecognized
transcript format (and, with a recognized format, an unrecognized language)
is rejected the same way; otherwise these options are ignored.  A valid
submission returns a freshly created record — pending, nothing fetched —
whose `total` is the number of split urls, without waiting for any stage. -/
theorem claim_C8 (payload : DownloadPayload) :
    (splitUrls payload.urls = [] →
      apiDownload payload = .badRequest "At least one URL is required.") ∧
    (splitUrls payload.urls ≠ [] → payload.audio_only = true →
      ((pyOrStr payload.transcript_format "srt").toLower ≠ "txt" ∧
        (pyOrStr payload.transcript_format "srt").toLower ≠ "srt") →
      apiDownload payload = .badRequest "Unsupported script format.") ∧
    (splitUrls payload.urls ≠ [] → payload.audio_only = true →
      ((pyOrStr payload.transcript_format "srt").toLower = "txt" ∨
        (pyOrStr payload.transcript_format "srt").toLower = "srt") →
      ((pyOrStr payload.transcript_language "auto").toLower ≠ "auto" ∧
        (pyOrStr payload.transcript_language "auto").toLower ≠ "ko" ∧
        (pyOrStr payload.transcript_language "auto").toLower ≠ "en") →
      apiDownload payload = .badRequest "Unsupported language option.") ∧
    (∀ (job : Job) (t : Nat) (odr : String),
      apiDownload payload = .created job t odr →
      job.status = Status.pending ∧ job.completed = 0 ∧
      job.current_progress = 0 ∧ job.failed = [] ∧
      job.completed_files = [] ∧ job.transcripts = [] ∧
      job.total = (splitUrls payload.urls).length ∧
      t = (splitUrls payload.urls).length) := by
  refine ⟨?_, ?_, ?_, ?_⟩
  · intro h
    simp [apiDownload, h]
  · intro hne hao hfmt
    have hv : validateTranscriptOptions payload.audio_only
        payload.transcript_format payload.transcript_language
        = .error "Unsupported script format." := by
      simp [validateTranscriptOptions, hao, hfmt.1, hfmt.2]
    simp only [apiDownload, hv]
    rw [if_neg (by simpa [List.isEmpty_iff] using hne)]
  · intro hne hao hfok hlang
    have hv : validateTranscriptOptions payload.audio_only
        payload.transcript_format payload.transcript_language
        = .error "Unsupported language option." := by
      unfold validateTranscriptOptions
      rw [if_pos hao, if_neg (by tauto), if_pos hlang]
    simp only [apiDownload, hv]
    rw [if_neg (by simpa [List.isEmpty_iff] using hne)]
  · intro job t odr h
    simp only [apiDownload] at h
    split at h
    · cases h
    · split at h
      · cases h
      · next tf tl heq =>
          rw [ApiResponse.created.injEq] at h
          obtain ⟨hjob, ht, -⟩ := h
          subst hjob
          subst ht
          refine ⟨rfl, rfl, rfl, rfl, rfl, rfl, rfl, rfl⟩

/-- The empty submission. -/
def pC8e : DownloadPayload :=
  { urls := ""
    output := none
    template := none
    audio_only := false
    quiet := true
    transcript_format := none
    transcript_language := none }

/-- Witness for the amended C8: the empty URL list is rejected with the
exact error message and no record. -/
theorem claim_C8_witness :
    splitUrls pC8e.urls = [] ∧
    apiDownload pC8e = .badRequest "At least one URL is required." :=
  ⟨by decide, (claim_C8 pC8e).1 (by decide)⟩

theorem fetchFinal_pres (j0 : Job) (items : List FetchItem) (P : Job → Prop)
    (hHook : ∀ (j : Job) (e : HookEvent), P j → P (progressHook j e))
    (hItem : ∀ j : Job, P j → P (itemComplete j))
    (hFailed : ∀ (j : Job) (fs : List String), P j → P { j with failed := fs })
    (h0 : P j0) : P (fetchFinal j0 items) := by
  unfold fetchFinal
  exact hFailed _ _ ((fetchTrace_pres P hHook hItem items j0 h0).2)

/-- C9: if the transcription capability is unavailable — the first attempted
file of the transcribe stage raises `RuntimeError` — the run ends
immediately in `status = error` with the non-empty descriptive message, no
transcript entry and no transcript error was recorded, `transcript_completed`
stays `0`, and the job's `transcripts` field is still empty. -/
theorem claim_C9 (env : Env) (od : String) (total : Nat) (odir : String)
    (tf tl : Option String) (items : List FetchItem) (p msg : String)
    (hfa : firstAttempt env od
        (fetchFinal (createJob total odir true tf tl) items).completed_files
      = some (p, .fatal msg)) :
    ((runJobTrace env od (createJob total odir true tf tl) items).getLastD
        (createJob total odir true tf tl)).status = Status.error ∧
    ((runJobTrace env od (createJob total odir true tf tl) items).getLastD
        (createJob total odir true tf tl)).error
      = some (whisperLoadFailMsg msg) ∧
    whisperLoadFailMsg msg ≠ "" ∧
    ((runJobTrace env od (createJob total odir true tf tl) items).getLastD
        (createJob total odir true tf tl)).transcripts = [] ∧
    ((runJobTrace env od (createJob total odir true tf tl) items).getLastD
        (createJob total odir true tf tl)).transcript_errors = [] ∧
    ((runJobTrace env od (createJob total odir true tf tl) items).getLastD
        (createJob total odir true tf tl)).transcript_completed = 0 := by
  have hao : (fetchFinal (createJob total odir true tf tl) items).audio_only
      = true := by
    refine fetchFinal_pres _ items (fun s => s.audio_only = true) ?_ ?_ ?_ rfl
    · intro j e hj
      rw [(progressHook_pres j e).2.2.2.2.1]
      exact hj
    · intro j hj
      rw [(itemComplete_pres j).2.2.2.2.2.2.2.1]
      exact hj
    · intro j fs hj
      exact hj
  have hts : (fetchFinal (createJob total odir true tf tl) items).transcripts
      = [] := by
    refine fetchFinal_pres _ items (fun s => s.transcripts = []) ?_ ?_ ?_ rfl
    · intro j e hj
      rw [(progressHook_pres j e).2.2.2.1]
      exact hj
    · intro j hj
      rw [(itemComplete_pres j).2.2.2.2.2.2.1]
      exact hj
    · intro j fs hj
      exact hj
  have hte : (fetchFinal (createJob total odir true tf tl) items).transcript_errors
      = [] := by
    refine fetchFinal_pres _ items (fun s => s.transcript_errors = []) ?_ ?_ ?_ rfl
    · intro j e hj
      rw [(progressHook_pres j e).2.2.2.2.2.2.2.2.1]
      exact hj
    · intro j hj
      rw [(itemComplete_pres j).2.2.2.2.2.2.2.2.2.2.2.1]
      exact hj
    · intro j fs hj
      exact hj
  have hne : (fetchFinal (createJob total odir true tf tl) items).completed_files
      ≠ [] := by
    intro h
    rw [h] at hfa
    simp [firstAttempt] at hfa
  have hEnt : transcribeEntered (fetchFinal (createJob total odir true tf tl) items)
      = true := by
    unfold transcribeEntered
    rw [hao]
    simp [List.isEmpty_iff, hne]
  have hres : transcribeResult env od
      (fetchFinal (createJob total odir true tf tl) items)
      = ⟨[{ beforeTranscribe env od
              (fetchFinal (createJob total odir true tf tl) items) with
            status := Status.error, error := some (whisperLoadFailMsg msg) }],
         { beforeTranscribe env od
              (fetchFinal (createJob total odir true tf tl) items) with
            status := Status.error, error := some (whisperLoadFailMsg msg) },
         true, []⟩ := by
    unfold transcribeResult
    rw [if_pos hEnt]
    exact transcribeFiles_fatal env od _ _ [] p msg hfa
  have hT : runJobTrace env od (createJob total odir true tf tl) items =
      (createJob total odir true tf tl ::
        fetchTrace (createJob total odir true tf tl) items ++
        [fetchFinal (createJob total odir true tf tl) items] ++
        reencStates env od (fetchFinal (createJob total odir true tf tl) items) ++
        transcribeInitStates env od
          (fetchFinal (createJob total odir true tf tl) items)) ++
      [{ beforeTranscribe env od
            (fetchFinal (createJob total odir true tf tl) items) with
          status := Status.error, error := some (whisperLoadFailMsg msg) }] := by
    simp [runJobTrace, hres, List.append_assoc]
  have hbt : beforeTranscribe env od
      (fetchFinal (createJob total odir true tf tl) items)
      = transcribeInit env (afterReencode env od
          (fetchFinal (createJob total odir true tf tl) items)) := by
    unfold beforeTranscribe
    rw [if_pos hEnt]
  have hmsg : whisperLoadFailMsg msg ≠ "" := by
    intro h
    have h2 := congrArg String.length h
    rw [whisperLoadFailMsg, String.length_append] at h2
    simp at h2
    exact absurd h2.1 (by decide)
  rw [hT, List.getLastD_concat]
  refine ⟨rfl, rfl, hmsg, ?_, ?_, ?_⟩
  · show (beforeTranscribe env od
        (fetchFinal (createJob total odir true tf tl) items)).transcripts = []
    rw [hbt]
    show (afterReencode env od
        (fetchFinal (createJob total odir true tf tl) items)).transcripts = []
    rw [(afterReencode_pres env od _).2.2.2.1]
    exact hts
  · show (beforeTranscribe env od
        (fetchFinal (createJob total odir true tf tl) items)).transcript_errors = []
    rw [hbt]
    show (afterReencode env od
        (fetchFinal (createJob total odir true tf tl) items)).transcript_errors = []
    rw [(afterReencode_pres env od _).2.2.2.2.2.2.2.2.1]
    exact hte
  · show (beforeTranscribe env od
        (fetchFinal (createJob total odir true tf tl) items)).transcript_completed = 0
    rw [hbt]
    rfl

/-- Environment for the C9 witness run: the fetched file exists and the
transcription capability is unavailable. -/
def envC9 : Env :=
  { pathExists := fun p => p == "out/c.mp3"
    isInstagram := fun _ _ => false
    transcribe := fun _ => .fatal "no model"
    startTime := 0 }

/-- The completed file of the C9 witness run. -/
def fileC9 : CompletedFile := ⟨"c.mp3", none, some "out/c.mp3"⟩

/-- One audio-only url whose fetch succeeds and produces one file. -/
def itemsC9 : List FetchItem :=
  [⟨"https://c", [.finished "C" "https://c" (some fileC9)], true⟩]

/-- The final record of the C9 witness run. -/
def lastC9 : Job :=
  (runJobTrace envC9 "out" (createJob 1 "out" true (some "srt") none)
    itemsC9).getLastD (createJob 1 "out" true (some "srt") none)

/-- Witness for C9, discharging the first-attempt-is-fatal hypothesis at the
concrete one-url run. -/
theorem claim_C9_witness :
    firstAttempt envC9 "out"
        (fetchFinal (createJob 1 "out" true (some "srt") none)
          itemsC9).completed_files
      = some ("out/c.mp3", .fatal "no model") ∧
    (lastC9.status = Status.error ∧
      lastC9.error = some (whisperLoadFailMsg "no model") ∧
      whisperLoadFailMsg "no model" ≠ "" ∧
      lastC9.transcripts = [] ∧
      lastC9.transcript_errors = [] ∧
      lastC9.transcript_completed = 0) :=
  ⟨by decide,
    claim_C9 envC9 "out" 1 "out" (some "srt") none itemsC9 "out/c.mp3" "no model"
      (by decide)⟩

/-- The two-url batch of the C6 scenario: `https://a` succeeds with one
finished file, `https://b` fails mid-download. -/
def itemsC6 : List FetchItem :=
  [⟨"https://a",
    [.downloading "A" "https://a" 1 2,
     .finished "A" "https://a" (some ⟨"a.mp4", none, some "out/a.mp4"⟩)],
    true⟩,
   ⟨"https://b", [.downloading "B" "https://b" 1 4], false⟩]

/-- The final record of the C6 scenario run. -/
def lastC6 : Job :=
  (runJobTrace envTriv "out" (createJob 2 "out" false none none)
    itemsC6).getLastD default

/-- C6: a failing url is appended to `failed` and the batch continues —
after the whole run, `failed` holds exactly the urls whose fetch failed, in
order; each `_item_complete` call increments `completed` (capped at
`total`) and resets `current_progress` to 0, so the fetch stage ends with
`completed = total`; and the two-url scenario with one failure ends with
`total = 2`, `completed = 2`, `failed = ["https://b"]`, `status = completed`
and exactly one completed-files entry. -/
theorem claim_C6 (env : Env) (od : String) (odir : String)
    (items : List FetchItem) :
    (∀ j : Job, (itemComplete j).completed = min j.total (j.completed + 1) ∧
      (itemComplete j).current_progress = 0) ∧
    (fetchFinal (createJob items.length odir false none none) items).failed
        = (items.filter (fun it => !it.success)).map FetchItem.url ∧
    (fetchFinal (createJob items.length odir false none none) items).completed
        = items.length ∧
    ((runJobTrace env od (createJob items.length odir false none none)
        items).getLastD (createJob items.length odir false none none)).failed
      = (items.filter (fun it => !it.success)).map FetchItem.url ∧
    ((runJobTrace env od (createJob items.length odir false none none)
        items).getLastD (createJob items.length odir false none none)).completed
      = items.length ∧
    ((runJobTrace env od (createJob items.length odir false none none)
        items).getLastD (createJob items.length odir false none none)).total
      = items.length ∧
    (lastC6.total = 2 ∧ lastC6.completed = 2 ∧
      lastC6.failed = ["https://b"] ∧ lastC6.status = Status.completed ∧
      lastC6.completed_files.length = 1) := by
  have hcount := fetchTrace_last_counts items
    (createJob items.length odir false none none) (by simp [createJob])
  have hcompF : (fetchFinal (createJob items.length odir false none none)
      items).completed = items.length := by
    show ((fetchTrace (createJob items.length odir false none none)
        items).getLastD (createJob items.length odir false none none)).completed
      = items.length
    rw [hcount.1]
    simp [createJob]
  have haoF : (fetchFinal (createJob items.length odir false none none)
      items).audio_only = false := by
    refine fetchFinal_pres _ items (fun s => s.audio_only = false) ?_ ?_ ?_ rfl
    · intro j e hj
      rw [(progressHook_pres j e).2.2.2.2.1]
      exact hj
    · intro j hj
      rw [(itemComplete_pres j).2.2.2.2.2.2.2.1]
      exact hj
    · intro j fs hj
      exact hj
  have hEntF : transcribeEntered (fetchFinal
      (createJob items.length odir false none none) items) = false := by
    unfold transcribeEntered
    rw [haoF]
    rfl
  have hr : transcribeResult env od (fetchFinal
      (createJob items.length odir false none none) items)
      = ⟨[], beforeTranscribe env od (fetchFinal
          (createJob items.length odir false none none) items), false, []⟩ := by
    unfold transcribeResult
    rw [if_neg (by rw [hEntF]; simp)]
  have hT : runJobTrace env od (createJob items.length odir false none none)
      items =
      (createJob items.length odir false none none ::
        fetchTrace (createJob items.length odir false none none) items ++
        [fetchFinal (createJob items.length odir false none none) items] ++
        reencStates env od (fetchFinal
          (createJob items.length odir false none none) items) ++
        transcribeInitStates env od (fetchFinal
          (createJob items.length odir false none none) items)) ++
      [finalize (beforeTranscribe env od (fetchFinal
          (createJob items.length odir false none none) items)) []] := by
    simp [runJobTrace, hr, List.append_assoc]
  have hbt : beforeTranscribe env od (fetchFinal
      (createJob items.length odir false none none) items)
      = afterReencode env od (fetchFinal
          (createJob items.length odir false none none) items) := by
    unfold beforeTranscribe
    rw [if_neg (by rw [hEntF]; simp)]
  have hbtot : (beforeTranscribe env od (fetchFinal
      (createJob items.length odir false none none) items)).total
      = items.length := by
    rw [hbt, (afterReencode_pres env od _).1]
    show ((fetchTrace (createJob items.length odir false none none)
        items).getLastD (createJob items.length odir false none none)).total
      = items.length
    rw [hcount.2]
    rfl
  refine ⟨fun j => ⟨rfl, rfl⟩, rfl, hcompF, ?_, ?_, ?_, by decide⟩
  · rw [hT, List.getLastD_concat, (finalize_facts _ _).2.2.2.2.1, hbt,
      (afterReencode_pres env od _).2.2.1]
    rfl
  · rw [hT, List.getLastD_concat, (finalize_facts _ _).2.1]
    exact hbtot
  · rw [hT, List.getLastD_concat, (finalize_facts _ _).2.2.1]
    exact hbtot

theorem stripNonEmpty_cons (x : List Char) (l : List (List Char)) :
    stripNonEmpty (x :: l) =
      if pyStrip x = [] then stripNonEmpty l
      else String.mk (pyStrip x) :: stripNonEmpty l := by
  by_cases h : pyStrip x = [] <;>
    simp [stripNonEmpty, List.filterMap_cons, h]

theorem splitAgree : (cs : List Char) → (acc : List Char) →
    stripNonEmpty (splitlinesAux acc (replaceCommas cs))
      = stripNonEmpty (splitCharsAux acc cs)
  | [], acc => by
      simp [replaceCommas, splitlinesAux, splitCharsAux]
  | c :: rest, acc => by
      by_cases hc1 : c = '\r'
      · subst hc1
        cases rest with
        | nil =>
            simp [replaceCommas, splitlinesAux, splitCharsAux, lineBreakChar]
        | cons c2 rest2 =>
            by_cases hc2 : c2 = ',' ∨ c2 = '\n'
            · have hLhs : replaceCommas ('\r' :: c2 :: rest2)
                  = '\r' :: '\n' :: replaceCommas rest2 := by
                rcases hc2 with h | h <;> subst h <;>
                  simp [replaceCommas]
              rw [hLhs]
              have h1 : splitlinesAux acc ('\r' :: '\n' :: replaceCommas rest2)
                  = acc.reverse :: splitlinesAux [] (replaceCommas rest2) := by
                simp [splitlinesAux]
              have h2 : splitCharsAux acc ('\r' :: c2 :: rest2)
                  = acc.reverse :: splitCharsAux [] (c2 :: rest2) := by
                simp [splitCharsAux, lineBreakChar]
              have h3 : splitCharsAux [] (c2 :: rest2)
                  = [].reverse ++ [] :: splitCharsAux [] rest2 := by
                rcases hc2 with h | h <;> subst h <;>
                  simp [splitCharsAux, lineBreakChar]
              rw [h1, h2, h3]
              simp only [List.reverse_nil, List.nil_append]
              rw [stripNonEmpty_cons, stripNonEmpty_cons, stripNonEmpty_cons]
              rw [splitAgree rest2 []]
              simp [pyStrip]
            · push_neg at hc2
              have hLhs : replaceCommas ('\r' :: c2 :: rest2)
                  = '\r' :: replaceCommas (c2 :: rest2) := by
                simp [replaceCommas]
              have hhd : replaceCommas (c2 :: rest2)
                  = c2 :: replaceCommas rest2 := by
                simp [replaceCommas, hc2.1]
              have h1 : splitlinesAux acc ('\r' :: c2 :: replaceCommas rest2)
                  = acc.reverse :: splitlinesAux [] (c2 :: replaceCommas rest2) := by
                have hne : ¬ c2 = '\n' := hc2.2
                simp [splitlinesAux, hne]
              have h2 : splitCharsAux acc ('\r' :: c2 :: rest2)
                  = acc.reverse :: splitCharsAux [] (c2 :: rest2) := by
                simp [splitCharsAux, lineBreakChar]
              rw [hLhs, hhd, h1, h2]
              rw [stripNonEmpty_cons, stripNonEmpty_cons]
              rw [show c2 :: replaceCommas rest2 = replaceCommas (c2 :: rest2)
                from hhd.symm]
              rw [splitAgree (c2 :: rest2) []]
      · by_cases hc3 : c = '\n' ∨ c = ','
        · have hLhs : replaceCommas (c :: rest) = '\n' :: replaceCommas rest := by
            rcases hc3 with h | h <;> subst h <;> simp [replaceCommas]
          have h1 : splitlinesAux acc ('\n' :: replaceCommas rest)
              = acc.reverse :: splitlinesAux [] (replaceCommas rest) := by
            rw [splitlinesAux.eq_def]
            simp
          have h2 : splitCharsAux acc (c :: rest)
              = acc.reverse :: splitCharsAux [] rest := by
            rcases hc3 with h | h <;> subst h <;>
              simp [splitCharsAux, lineBreakChar]
          rw [hLhs, h1, h2]
          rw [stripNonEmpty_cons, stripNonEmpty_cons]
          rw [splitAgree rest []]
        · push_neg at hc3
          have hLhs : replaceCommas (c :: rest) = c :: replaceCommas rest := by
            simp [replaceCommas, hc3.2]
          have h1 : splitlinesAux acc (c :: replaceCommas rest)
              = splitlinesAux (c :: acc) (replaceCommas rest) := by
            rw [splitlinesAux.eq_def]
            simp [hc1, hc3.1]
          have h2 : splitCharsAux acc (c :: rest)
              = splitCharsAux (c :: acc) rest := by
            simp [splitCharsAux, lineBreakChar, hc1, hc3.1, hc3.2]
          rw [hLhs, h1, h2]
          rw [splitAgree rest (c :: acc)]
termination_by cs _ => cs.length

/-- C10: `_split_urls` accepts the urls field as one text blob and splits it
on both commas and newline characters, stripping surrounding whitespace and
dropping empty entries (it agrees with the direct comma/newline split
`specSplitUrls` on every blob), and a successful submission creates a job
whose `total` — also the `total` returned to the caller — equals the number
of urls resulting from this split. -/
theorem claim_C10 (payload : DownloadPayload) :
    splitUrls payload.urls = specSplitUrls payload.urls ∧
    (∀ (job : Job) (t : Nat) (odr : String),
      apiDownload payload = .created job t odr →
      job.total = (specSplitUrls payload.urls).length ∧
      t = (specSplitUrls payload.urls).length) := by
  have hagree : splitUrls payload.urls = specSplitUrls payload.urls :=
    splitAgree payload.urls.data []
  refine ⟨hagree, ?_⟩
  intro job t odr h
  simp only [apiDownload] at h
  split at h
  · cases h
  · split at h
    · cases h
    · rw [ApiResponse.created.injEq] at h
      obtain ⟨hjob, ht, -⟩ := h
      subst hjob
      subst ht
      refine ⟨?_, ?_⟩
      · rw [← hagree]
        try rfl
      · rw [← hagree]
        try rfl

/-- A submission whose blob mixes commas, newlines, spare whitespace and an
empty entry. -/
def pC10 : DownloadPayload :=
  { urls := " https://a ,https://b\nhttps://c\n\n"
    output := none
    template := none
    audio_only := false
    quiet := true
    transcript_format := none
    transcript_language := none }

/-- Witness for C10: the mixed blob splits into three urls and the created
job carries `total = 3`. -/
theorem claim_C10_witness :
    apiDownload pC10
      = .created (createJob 3 "downloads" false none none) 3 "downloads" ∧
    ((createJob 3 "downloads" false none none).total
        = (specSplitUrls pC10.urls).length ∧
      3 = (specSplitUrls pC10.urls).length) :=
  ⟨by decide,
    (claim_C10 pC10).2 (createJob 3 "downloads" false none none) 3 "downloads"
      (by decide)⟩

/-- A running job record under reference semantics, its `completed_files`
list stored at heap cell 1. -/
def recC3 : PyJobRec :=
  { status := .running
    total := 1
    completed := 0
    current_progress := 0
    current_title := ""
    current_url := ""
    failed_ref := 0
    completed_files_ref := 1
    error := none
    output_dir := "out" }

/-- The heap before the mutation: all lists empty. -/
def heapC3 : PyHeap := { files := fun _ => [], strs := fun _ => [] }

/-- The heap after the event sink appends a finished file to the record's
`completed_files` list. -/
def heapC3b : PyHeap :=
  heapAppendFile heapC3 recC3.completed_files_ref ⟨"a.mp4", none, none⟩

/-- C3 counterexample: the snapshot taken by `job_progress` is
`job.copy()`, a shallow copy sharing the record's list objects; when the
event sink appends a completed file after the snapshot was taken (and
before the view is rendered, which happens outside the lock), the view
rendered from that same snapshot changes — so the query does not return an
immutable deep copy whose content is fixed at snapshot time. -/
theorem claim_C3_counterexample :
    (renderView heapC3b (dictCopyShallow recC3)).completed_files
        = [("a.mp4", none)] ∧
    (renderView heapC3 (dictCopyShallow recC3)).completed_files = [] ∧
    renderView heapC3b (dictCopyShallow recC3)
      ≠ renderView heapC3 (dictCopyShallow recC3) := by
  have ha : (renderView heapC3b (dictCopyShallow recC3)).completed_files
      = [("a.mp4", none)] := by decide
  have hb : (renderView heapC3 (dictCopyShallow recC3)).completed_files = [] := by
    decide
  refine ⟨ha, hb, ?_⟩
  intro h
  have h2 := congrArg ProgressView.completed_files h
  rw [ha, hb] at h2
  cases h2

/-- C3 (amended): the progress query signals NotFound (404) for an unknown
job identifier; for a known identifier it renders the view from a shallow
`dict.copy()` of the record — the copy shares the record's list objects
(`dictCopyShallow job = job` on the reference representation), and the
returned `completed_files` are read through the record's shared list
reference at rendering time rather than from a deep copy fixed at snapshot
time. -/
theorem claim_C3 (jobs : List (String × PyJobRec)) (h : PyHeap) (id : String) :
    (jobsGet jobs id = none → jobProgressQuery jobs h id = none) ∧
    (∀ job, jobsGet jobs id = some job →
      dictCopyShallow job = job ∧
      jobProgressQuery jobs h id = some (renderView h job) ∧
      (renderView h job).completed_files
        = (h.files job.completed_files_ref).map (fun f => (f.name, f.thumbnail))) := by
  constructor
  · intro hh
    simp [jobProgressQuery, hh]
  · intro job hh
    refine ⟨rfl, ?_, rfl⟩
    simp [jobProgressQuery, hh, dictCopyShallow]

/-- Witness for the amended C3 at a concrete store: querying the unknown
identifier `"k"` yields NotFound. -/
theorem claim_C3_witness :
    jobsGet [("j", recC3)] "k" = none ∧
    jobProgressQuery [("j", recC3)] heapC3 "k" = none :=
  ⟨by decide, (claim_C3 [("j", recC3)] heapC3 "k").1 (by decide)⟩
